import Mathlib

/-!
# Verification of the go-semantic-release GitHub provider

A shallow embedding of `pkg/provider/github.go` (go-semantic-release/provider-github).
Go pointer fields of the go-github API structs become `Option` fields; the
`GetX` accessors of go-github (which return the zero value on a nil pointer
or nil receiver) become total functions over those options.  Fallible API
calls return `Except String`; the unbounded pagination loops take explicit
fuel and return `none` when the fuel runs out (the Go loop would still be
running), so termination is a provable `= some _` statement.  Time values
are represented by their RFC3339 rendering, which is all the provider ever
observes of them (`GetDate().Format(time.RFC3339)`).
-/

namespace GithubProvider

/-! ## External dependency models (go-github data, stdlib helpers) -/

/-- A GitHub user object; only the `login` field is read by the provider. -/
structure User where
  login : Option String := none
deriving DecidableEq, Inhabited

/-- The author/committer information embedded in a git commit object. -/
structure CommitAuthor where
  name : Option String := none
  email : Option String := none
  /-- The date, represented by its RFC3339 rendering (the only observation
  the provider makes of a `time.Time`). -/
  date : Option String := none
deriving DecidableEq, Inhabited

/-- A git commit object (go-github `Commit`); fields the provider reads. -/
structure Commit where
  message : Option String := none
  author : Option CommitAuthor := none
  committer : Option CommitAuthor := none
deriving DecidableEq, Inhabited

/-- A repository commit (go-github `RepositoryCommit`); fields the provider reads. -/
structure RepositoryCommit where
  sha : Option String := none
  commit : Option Commit := none
  author : Option User := none
  committer : Option User := none
deriving DecidableEq, Inhabited

/-- go-github `GitObject`: the object a git reference or tag points at. -/
structure GitObject where
  type : Option String := none
  sha : Option String := none
deriving DecidableEq, Inhabited

/-- go-github `Reference`: a git reference such as `refs/tags/v1.0.0`. -/
structure Reference where
  ref : Option String := none
  object : Option GitObject := none
deriving DecidableEq, Inhabited

/-- go-github `Tag`: an annotated tag object, pointing at another object. -/
structure Tag where
  object : Option GitObject := none
deriving DecidableEq, Inhabited

/-- go-github `ListOptions`: pagination options sent with a list request. -/
structure ListOptions where
  perPage : Nat := 0
  page : Nat := 0
deriving DecidableEq, Inhabited

/-- go-github `ReferenceListOptions`: `Ref` filter plus embedded `ListOptions`. -/
structure ReferenceListOptions where
  ref : String := ""
  listOptions : ListOptions := {}
deriving DecidableEq, Inhabited

/-- The part of a go-github `Response` the provider reads: the `NextPage`
index parsed from the `Link` header (0 when there is no further page) and
the HTTP status code. -/
structure Response where
  nextPage : Nat := 0
  statusCode : Nat := 200
deriving DecidableEq, Inhabited

/-- go-github `RepositoryRelease`: the payload of a create-release call
(the fields the provider fills; all are set from non-nil pointers). -/
structure RepositoryRelease where
  tagName : String
  name : String
  targetCommitish : String
  body : String
  prerelease : Bool
deriving DecidableEq, Inhabited

/-- go-github `Repository`: fields `GetInfo` reads. -/
structure Repository where
  owner : Option User := none
  name : Option String := none
  defaultBranch : Option String := none
  priv : Option Bool := none
deriving DecidableEq, Inhabited

/-- The nil-tolerant accessors of go-github: `GetX` on a possibly-nil pointer
returns the zero value. `optStr` is that pattern for a `*string`. -/
def optStr (s : Option String) : String := s.getD ""

/-- go-github `GetLogin` through a possibly-nil `*User`. -/
def getLogin (u : Option User) : String :=
  match u with
  | none => ""
  | some u => optStr u.login

/-- go-github `GetMessage` through a possibly-nil `*Commit`. -/
def getMessage (c : Option Commit) : String :=
  match c with
  | none => ""
  | some c => optStr c.message

/-- `c.GetAuthor()` on a possibly-nil `*Commit`. -/
def getCommitAuthor (c : Option Commit) : Option CommitAuthor :=
  c.bind (·.author)

/-- `c.GetCommitter()` on a possibly-nil `*Commit`. -/
def getCommitCommitter (c : Option Commit) : Option CommitAuthor :=
  c.bind (·.committer)

/-- go-github `GetName` through a possibly-nil `*CommitAuthor`. -/
def caGetName (a : Option CommitAuthor) : String :=
  match a with
  | none => ""
  | some a => optStr a.name

/-- go-github `GetEmail` through a possibly-nil `*CommitAuthor`. -/
def caGetEmail (a : Option CommitAuthor) : String :=
  match a with
  | none => ""
  | some a => optStr a.email

/-- The RFC3339 rendering of Go's zero `time.Time` (what
`GetDate().Format(time.RFC3339)` yields when the date pointer is nil). -/
def zeroTimeRFC3339 : String := "0001-01-01T00:00:00Z"

/-- `a.GetDate().Format(time.RFC3339)` through a possibly-nil `*CommitAuthor`:
dates are represented by their RFC3339 rendering. -/
def caGetDateRFC3339 (a : Option CommitAuthor) : String :=
  match a with
  | none => zeroTimeRFC3339
  | some a => a.date.getD zeroTimeRFC3339

/-- `RepositoryCommit.GetSHA`. -/
def RepositoryCommit.getSHA (c : RepositoryCommit) : String := optStr c.sha

/-- `Reference.GetRef`. -/
def Reference.getRef (r : Reference) : String := optStr r.ref

/-- `r.Object.GetType()` — the Go code dereferences `r.Object` (never nil in
API responses); `GetType` tolerates a nil receiver. -/
def Reference.objType (r : Reference) : String :=
  match r.object with
  | none => ""
  | some o => optStr o.type

/-- `r.Object.GetSHA()`. -/
def Reference.objSHA (r : Reference) : String :=
  match r.object with
  | none => ""
  | some o => optStr o.sha

/-- `t.Object.GetType()` of an annotated `Tag`. -/
def Tag.objType (t : Tag) : String :=
  match t.object with
  | none => ""
  | some o => optStr o.type

/-- `t.Object.GetSHA()` of an annotated `Tag`. -/
def Tag.objSHA (t : Tag) : String :=
  match t.object with
  | none => ""
  | some o => optStr o.sha

/-! ## Masterminds/semver and Go stdlib models -/

/-- Split a character list at the first occurrence of `c`: `none` when `c`
does not occur, else the part before and the part after. -/
def splitFirst (c : Char) : List Char → Option (List Char × List Char)
  | [] => none
  | x :: xs =>
    if x = c then some ([], xs)
    else (splitFirst c xs).map (fun p => (x :: p.1, p.2))

/-- Split a character list on every occurrence of `c` (like Go
`strings.Split`): always at least one part, empty parts kept. -/
def splitAll (c : Char) : List Char → List (List Char)
  | [] => [[]]
  | x :: xs =>
    let r := splitAll c xs
    if x = c then [] :: r
    else
      match r with
      | [] => [[x]]
      | h :: t => (x :: h) :: t

/-- The decimal value of a digit list (Go `strconv.ParseUint` on an
all-digit string; leading zeros allowed). -/
def digitsVal (l : List Char) : Nat :=
  l.foldl (fun n d => n * 10 + (d.toNat - 48)) 0

/-- A character of the semver prerelease/metadata class `[0-9A-Za-z-]`. -/
def isPreChar (c : Char) : Bool :=
  c.isDigit || ('A' ≤ c && c ≤ 'Z') || ('a' ≤ c && c ≤ 'z') || c = '-'

/-- Dot-separated, each segment non-empty over `[0-9A-Za-z-]` (the
prerelease / build-metadata shape of the Masterminds version regex). -/
def validSegs (l : List Char) : Bool :=
  (splitAll '.' l).all (fun seg => !seg.isEmpty && seg.all isPreChar)

/-- A parsed semantic version (Masterminds/semver `Version`): the numeric
core and the raw prerelease and metadata strings. -/
structure SemVersion where
  major : Nat
  minor : Nat
  patch : Nat
  pre : String
  metadata : String
deriving DecidableEq, Inhabited

/-- Modelled from the spec: the lenient `semver.NewVersion` of
Masterminds/semver v3 (an external dependency, not in this repository).
It accepts an optional leading `v`, one to three dot-separated decimal
components (missing minor/patch default to 0, leading zeros allowed),
an optional `-prerelease` and an optional `+metadata`, both dot-separated
non-empty segments over `[0-9A-Za-z-]`; anything else fails. -/
def semverNewVersion (s : String) : Option SemVersion :=
  let l := s.toList
  let l := match l with
    | 'v' :: rest => rest
    | _ => l
  let bodyMeta := match splitFirst '+' l with
    | none => (l, none)
    | some (a, b) => (a, some b)
  let coreAndPre := match splitFirst '-' bodyMeta.1 with
    | none => (bodyMeta.1, none)
    | some (a, b) => (a, some b)
  let parts := splitAll '.' coreAndPre.1
  if parts.length > 3 then none
  else if ¬ parts.all (fun p => !p.isEmpty && p.all Char.isDigit) then none
  else if ¬ validSegs (coreAndPre.2.getD ['0']) then none
  else if ¬ validSegs (bodyMeta.2.getD ['0']) then none
  else
    some { major := digitsVal (parts.getD 0 [])
           minor := digitsVal (parts.getD 1 [])
           patch := digitsVal (parts.getD 2 [])
           pre := String.mk (coreAndPre.2.getD [])
           metadata := String.mk (bodyMeta.2.getD []) }

/-- Modelled from the spec: Masterminds `Version.String()` — the normalized
`major.minor.patch` rendering, with `-prerelease` and `+metadata` appended
when non-empty (no leading `v`). -/
def semverString (v : SemVersion) : String :=
  toString v.major ++ "." ++ toString v.minor ++ "." ++ toString v.patch
    ++ (if v.pre = "" then "" else "-" ++ v.pre)
    ++ (if v.metadata = "" then "" else "+" ++ v.metadata)

/-- Modelled from the spec: Go `strconv.ParseBool`, which accepts exactly
`1, t, T, TRUE, true, True, 0, f, F, FALSE, false, False`. -/
def parseBool (s : String) : Except String Bool :=
  if s = "1" ∨ s = "t" ∨ s = "T" ∨ s = "TRUE" ∨ s = "true" ∨ s = "True" then .ok true
  else if s = "0" ∨ s = "f" ∨ s = "F" ∨ s = "FALSE" ∨ s = "false" ∨ s = "False" then .ok false
  else .error ("strconv.ParseBool: parsing " ++ s ++ ": invalid syntax")

/-- Go `strings.Contains s c` for a one-character substring: whether the
character occurs in the string. -/
def strContains (s : String) (c : Char) : Bool :=
  s.toList.contains c

/-- Go `strings.Split s sep` for the one-character separator `sep`. -/
def splitOnChar (s : String) (c : Char) : List String :=
  (splitAll c s.toList).map (fun l => String.mk l)

/-- Go `strings.TrimPrefix`: drop `p` from the front of `s` when it is
there, else return `s` unchanged. -/
def trimPfx (s p : String) : String :=
  if p.isPrefixOf s then s.drop p.length else s

/-! ## Provider output types (go-semantic-release contract) -/

/-- semrel `RawCommit`: what `GetCommits` hands to the host.  The Go
`Annotations` field is a `map[string]string` literal with eight fixed keys;
it is embedded as the association list in the order the literal writes. -/
structure RawCommit where
  sha : String
  rawMessage : String
  annotations : List (String × String)
deriving DecidableEq, Inhabited

/-- semrel `Release`: what `GetReleases` hands to the host. -/
structure Release where
  sha : String
  version : String
deriving DecidableEq, Inhabited

/-- provider `RepositoryInfo`: what `GetInfo` hands to the host. -/
structure RepositoryInfo where
  owner : String
  repo : String
  defaultBranch : String
  priv : Bool
deriving DecidableEq, Inhabited

/-- provider `CreateReleaseConfig`: the host's input to `CreateRelease`. -/
structure CreateReleaseConfig where
  changelog : String := ""
  newVersion : String := ""
  prerelease : Bool := false
  branch : String := ""
  sha : String := ""
deriving DecidableEq, Inhabited

/-! ## The GitHub client as an environment

The provider only ever calls six endpoints.  A `Client` is the semantic
content of `*github.Client` for those calls: a response function per
endpoint.  For `ListMatchingRefs` the Go code inspects the `*Response`
before the error (the 404 short-circuit), so that endpoint returns the
optional response alongside the possibly-failing result, as go-github does. -/

structure Client where
  /-- `Repositories.Get owner repo`. -/
  getRepo : String → String → Except String Repository
  /-- `Repositories.ListCommits owner repo {SHA := toSha, ListOptions := opts}`. -/
  listCommits : String → String → String → ListOptions →
    Except String (List RepositoryCommit × Response)
  /-- `Repositories.CompareCommits owner repo fromSha toSha opts`, already
  projected to the comparison's `Commits` field plus the response. -/
  compareCommits : String → String → String → String → ListOptions →
    Except String (List RepositoryCommit × Response)
  /-- `Git.ListMatchingRefs owner repo opts`: the optional HTTP response and
  the possibly-failing list of references. -/
  listMatchingRefs : String → String → ReferenceListOptions →
    Option Response × Except String (List Reference)
  /-- `Git.GetTag owner repo sha`: dereference an annotated tag object. -/
  getTag : String → String → String → Except String Tag
  /-- `Git.CreateRef owner repo ref sha`. -/
  createRef : String → String → String → String → Except String Unit
  /-- `Repositories.CreateRelease owner repo payload`. -/
  createRelease : String → String → RepositoryRelease → Except String Unit

/-- The provider's own state (`GitHubRepository` struct of github.go). -/
structure GitHubRepository where
  owner : String := ""
  repo : String := ""
  stripVTagPrefix : Bool := false
  client : Client
  compareCommits : Bool := false

/-- The process environment and client constructors `Init` consults:
`getenv` returns `""` for an unset variable (as Go `os.Getenv` does);
`newEnterpriseClient` models `github.NewEnterpriseClient url url oauth`
(both URL arguments are the same string in the source) and can fail. -/
structure InitEnv where
  getenv : String → String
  newClient : Client
  newEnterpriseClient : String → Except String Client

/-- The enterprise host `Init` resolves (github.go lines 31-34): the
`github_enterprise_host` config key, else `GITHUB_ENTERPRISE_HOST`. -/
def effGheHost (env : InitEnv) (config : String → String) : String :=
  let gheHost0 := config "github_enterprise_host"
  if gheHost0 = "" then env.getenv "GITHUB_ENTERPRISE_HOST" else gheHost0

/-- The slug `Init` resolves (github.go lines 35-38): the `slug` config
key, else `GITHUB_REPOSITORY`. -/
def effSlug (env : InitEnv) (config : String → String) : String :=
  let slug0 := config "slug"
  if slug0 = "" then env.getenv "GITHUB_REPOSITORY" else slug0

/-- The token `Init` resolves (github.go lines 39-45): the `token` config
key, else `GITHUB_TOKEN`, else `GH_TOKEN`. -/
def effToken (env : InitEnv) (config : String → String) : String :=
  let token0 := config "token"
  let token1 := if token0 = "" then env.getenv "GITHUB_TOKEN" else token0
  if token1 = "" then env.getenv "GH_TOKEN" else token1

/-- `GitHubRepository.Init` (github.go lines 30-82): resolve host, slug and
token from config and environment, require a token and a `/` in the slug,
build the (enterprise) client, and read the `github_use_compare_commits`
and `strip_v_tag_prefix` options.  Go mutates the receiver; here the final
state is returned (`Except.error` for every `return err` path). -/
def Init (env : InitEnv) (config : String → String) : Except String GitHubRepository :=
  let gheHost := effGheHost env config
  let slug := effSlug env config
  let token := effToken env config
  if token = "" then .error "github token missing"
  else if ¬ strContains slug '/' then .error "invalid slug"
  else
    let split := splitOnChar slug '/'
    let owner := split.getD 0 ""
    let repoName := split.getD 1 ""
    let clientRes : Except String Client :=
      if gheHost ≠ "" then
        env.newEnterpriseClient ("https://" ++ gheHost ++ "/api/v3/")
      else .ok env.newClient
    match clientRes with
    | .error e => .error e
    | .ok client =>
      let cc := config "github_use_compare_commits" = "true"
      let svp := config "strip_v_tag_prefix"
      match parseBool svp with
      | .ok b =>
        .ok { owner := owner, repo := repoName, stripVTagPrefix := b,
              client := client, compareCommits := cc }
      | .error e =>
        if svp ≠ "" then .error ("failed to set property strip_v_tag_prefix: " ++ e)
        else
          .ok { owner := owner, repo := repoName, stripVTagPrefix := false,
                client := client, compareCommits := cc }

/-- `GetInfo` (github.go lines 84-95). -/
def GetInfo (repo : GitHubRepository) : Except String RepositoryInfo :=
  match repo.client.getRepo repo.owner repo.repo with
  | .error e => .error e
  | .ok r =>
    .ok { owner := getLogin r.owner
          repo := optStr r.name
          defaultBranch := optStr r.defaultBranch
          priv := r.priv.getD false }

/-- The translation of one listed commit to a semrel `RawCommit`
(github.go lines 126, 132-145): SHA, raw message, and the eight
author/committer annotations with RFC3339-rendered dates. -/
def toRawCommit (commit : RepositoryCommit) : RawCommit :=
  let sha := commit.getSHA
  { sha := sha
    rawMessage := getMessage commit.commit
    annotations := [
      ("author_login", getLogin commit.author),
      ("author_name", caGetName (getCommitAuthor commit.commit)),
      ("author_email", caGetEmail (getCommitAuthor commit.commit)),
      ("author_date", caGetDateRFC3339 (getCommitAuthor commit.commit)),
      ("committer_login", getLogin commit.committer),
      ("committer_name", caGetName (getCommitCommitter commit.commit)),
      ("committer_email", caGetEmail (getCommitCommitter commit.commit)),
      ("committer_date", caGetDateRFC3339 (getCommitCommitter commit.commit))] }

/-- `getCommitsFromGithub` (github.go lines 97-109): dispatch to the direct
listing or the compare endpoint (the latter already projected to its
`Commits` field, as the Go code does after its error check). -/
def getCommitsFromGithub (repo : GitHubRepository) (compareCommits : Bool)
    (fromSha toSha : String) (opts : ListOptions) :
    Except String (List RepositoryCommit × Response) :=
  if ¬ compareCommits then
    repo.client.listCommits repo.owner repo.repo toSha opts
  else
    repo.client.compareCommits repo.owner repo.repo fromSha toSha opts

/-- The inner `for _, commit := range commits` of `GetCommits` (github.go
lines 125-146): translate and append each commit, but in direct-listing
mode stop (`done = true`) at the first commit whose SHA is `fromSha`,
excluding it. -/
def processCommitsPage (compareCommits : Bool) (fromSha : String) :
    List RawCommit → List RepositoryCommit → List RawCommit × Bool
  | acc, [] => (acc, false)
  | acc, commit :: rest =>
    let sha := commit.getSHA
    if ¬ compareCommits ∧ sha = fromSha then (acc, true)
    else processCommitsPage compareCommits fromSha (acc ++ [toRawCommit commit]) rest

/-- The pagination `for` loop of `GetCommits` (github.go lines 120-151),
with fuel: `none` means the fuel ran out while the Go loop would still be
running. -/
def getCommitsLoop (repo : GitHubRepository) (compareCommits : Bool)
    (fromSha toSha : String) :
    Nat → List RawCommit → ListOptions → Option (Except String (List RawCommit))
  | 0, _, _ => none
  | fuel + 1, allCommits, opts =>
    match getCommitsFromGithub repo compareCommits fromSha toSha opts with
    | .error e => some (.error e)
    | .ok (commits, resp) =>
      match processCommitsPage compareCommits fromSha allCommits commits with
      | (acc, done) =>
        if done ∨ resp.nextPage = 0 then some (.ok acc)
        else
          getCommitsLoop repo compareCommits fromSha toSha fuel acc
            { opts with page := resp.nextPage }

/-- `GetCommits` (github.go lines 111-153): compare mode is disabled when
`fromSha` is empty (all commits are wanted for a first release), the page
size is 100, and the loop starts at the default page. -/
def GetCommits (repo : GitHubRepository) (fromSha toSha : String) (fuel : Nat) :
    Option (Except String (List RawCommit)) :=
  let compareCommits :=
    if repo.compareCommits ∧ fromSha = "" then false else repo.compareCommits
  getCommitsLoop repo compareCommits fromSha toSha fuel [] { perPage := 100, page := 0 }

/-- The body of the `for _, r := range refs` loop of `GetReleases`
(github.go lines 168-194) for a single reference: `none` is a `continue`.
The tag name is the ref without `refs/tags/`; it must match the regex
(when one was given), the object must be a commit or an annotated tag, an
annotated tag is dereferenced via the tags API (skipped when that fails or
yields a non-commit), and the tag name must parse as a semantic version;
the release carries the resolved SHA and the normalized version string. -/
def processRef (repo : GitHubRepository) (rawRe : String) (re : String → Bool)
    (r : Reference) : Option Release :=
  let tag := trimPfx r.getRef "refs/tags/"
  if rawRe ≠ "" ∧ ¬ re tag then none
  else
    let objType := r.objType
    if objType ≠ "commit" ∧ objType ≠ "tag" then none
    else
      let foundSha := r.objSHA
      let resolvedSha : Option String :=
        if objType = "tag" then
          match repo.client.getTag repo.owner repo.repo foundSha with
          | .error _ => none
          | .ok resTag =>
            if resTag.objType ≠ "commit" then none
            else some resTag.objSHA
        else some foundSha
      match resolvedSha with
      | none => none
      | some sha =>
        match semverNewVersion tag with
        | none => none
        | some version => some { sha := sha, version := semverString version }

/-- The `for _, r := range refs` loop of `GetReleases` (github.go lines
168-194), appending the releases of one page to the accumulator. -/
def processRefs (repo : GitHubRepository) (rawRe : String) (re : String → Bool) :
    List Release → List Reference → List Release
  | acc, [] => acc
  | acc, r :: rest =>
    match processRef repo rawRe re r with
    | none => processRefs repo rawRe re acc rest
    | some rel => processRefs repo rawRe re (acc ++ [rel]) rest

/-- `resp != nil && resp.StatusCode == 404` (github.go line 162). -/
def is404 : Option Response → Bool
  | some resp => resp.statusCode == 404
  | none => false

/-- The pagination `for` loop of `GetReleases` (github.go lines 160-199),
with fuel.  The 404 short-circuit is checked before the error, as in the
source.  After a nil error the Go code reads `resp.NextPage` from a
response that the real client never leaves nil; a `none` response is read
as next page 0 here. -/
def getReleasesLoop (repo : GitHubRepository) (rawRe : String) (re : String → Bool) :
    Nat → List Release → ReferenceListOptions → Option (Except String (List Release))
  | 0, _, _ => none
  | fuel + 1, allReleases, opts =>
    let res := repo.client.listMatchingRefs repo.owner repo.repo opts
    if is404 res.1 then some (.ok allReleases)
    else
      match res.2 with
      | .error e => some (.error e)
      | .ok refs =>
        let acc := processRefs repo rawRe re allReleases refs
        let nextPage := match res.1 with
          | some resp => resp.nextPage
          | none => 0
        if nextPage = 0 then some (.ok acc)
        else
          getReleasesLoop repo rawRe re fuel acc
            { opts with listOptions := { opts.listOptions with page := nextPage } }

/-- `GetReleases` (github.go lines 156-202): `regexp.MustCompile rawRe` is
modelled by the matcher family `reMatch` (the Go regexp engine is an
external dependency; `rawRe` is assumed to be a valid pattern, else
`MustCompile` would panic before the loop).  Page size is 100 and the ref
filter is `tags`. -/
def GetReleases (repo : GitHubRepository) (reMatch : String → String → Bool)
    (rawRe : String) (fuel : Nat) : Option (Except String (List Release)) :=
  getReleasesLoop repo rawRe (reMatch rawRe) fuel []
    { ref := "tags", listOptions := { perPage := 100 } }

/-- The API calls `CreateRelease` can issue, in order. -/
inductive APICall where
  | createRef (owner repo ref sha : String)
  | createRelease (owner repo : String) (payload : RepositoryRelease)
deriving DecidableEq

/-- `CreateRelease` (github.go lines 204-234).  The result is the list of
API calls issued, in order, and the outcome: `none` when
`semver.MustParse release.NewVersion` panics (note the Go `||`
short-circuit: when `release.Prerelease` is already true, `MustParse` is
never evaluated), `some` of the returned error or success otherwise.  A
failing `CreateRef` aborts before the release is created. -/
def CreateRelease (repo : GitHubRepository) (release : CreateReleaseConfig) :
    List APICall × Option (Except String Unit) :=
  let pfx := if repo.stripVTagPrefix then "" else "v"
  let tag := pfx ++ release.newVersion
  let isPrereleaseRes : Option Bool :=
    if release.prerelease then some true
    else (semverNewVersion release.newVersion).map (fun v => decide (v.pre ≠ ""))
  match isPrereleaseRes with
  | none => ([], none)
  | some isPrerelease =>
    let payload : RepositoryRelease :=
      { tagName := tag, name := tag, targetCommitish := release.branch,
        body := release.changelog, prerelease := isPrerelease }
    if release.branch ≠ release.sha then
      let ref := "refs/tags/" ++ tag
      match repo.client.createRef repo.owner repo.repo ref release.sha with
      | .error e =>
        ([.createRef repo.owner repo.repo ref release.sha], some (.error e))
      | .ok _ =>
        ([.createRef repo.owner repo.repo ref release.sha,
          .createRelease repo.owner repo.repo payload],
         some (repo.client.createRelease repo.owner repo.repo payload))
    else
      ([.createRelease repo.owner repo.repo payload],
       some (repo.client.createRelease repo.owner repo.repo payload))

/-! ## A linear-history model of the remote

The claims about `GetCommits` compare the provider's two REST
representations.  The remote is modelled as a linear, newest-first commit
history, following the repository's own test server (`github_test.go`):
the direct listing for `toSha` serves the history from the first commit
with that SHA on, and the diff/compare listing for `fromSha...toSha`
serves the slice from `toSha`'s position up to (excluding) `fromSha`'s
position.  Responses are paginated in chunks of the requested page size. -/

/-- The index of the first commit with SHA `sha` (the history's length when
there is none). -/
def shaIdx (history : List RepositoryCommit) (sha : String) : Nat :=
  history.findIdx (fun c => c.getSHA == sha)

/-- The direct-listing representation: the history from `toSha` on. -/
def directListing (history : List RepositoryCommit) (toSha : String) :
    List RepositoryCommit :=
  history.drop (shaIdx history toSha)

/-- The diff/compare representation: the slice `history[toSha's index :
fromSha's index]` (Go slice semantics via take/drop). -/
def compareListing (history : List RepositoryCommit) (fromSha toSha : String) :
    List RepositoryCommit :=
  (history.take (shaIdx history fromSha)).drop (shaIdx history toSha)

/-- Serve one page of a full listing `L`: GitHub treats page 0 as page 1,
and the `NextPage` of the response is 0 on the last page. -/
def pageChunk (L : List α) (opts : ListOptions) : List α × Response :=
  let p := max opts.page 1
  let start := (p - 1) * opts.perPage
  ((L.drop start).take opts.perPage,
   { nextPage := if start + opts.perPage < L.length then p + 1 else 0,
     statusCode := 200 })

/-- The error any endpoint of a mock client answers when the modelled
scenario never calls it. -/
def unexpectedCall : String := "unexpected API call"

/-- A client that serves the two commit-listing endpoints in pages from
the given listing families and fails every other endpoint. -/
def pagedClient (listing : String → List RepositoryCommit)
    (comp : String → String → List RepositoryCommit) : Client :=
  { getRepo := fun _ _ => .error unexpectedCall
    listCommits := fun _ _ toSha opts => .ok (pageChunk (listing toSha) opts)
    compareCommits := fun _ _ fromSha toSha opts =>
      .ok (pageChunk (comp fromSha toSha) opts)
    listMatchingRefs := fun _ _ _ => (none, .error unexpectedCall)
    getTag := fun _ _ _ => .error unexpectedCall
    createRef := fun _ _ _ _ => .error unexpectedCall
    createRelease := fun _ _ _ => .error unexpectedCall }

/-- An initialized provider over a `pagedClient`. -/
def pagedRepo (listing : String → List RepositoryCommit)
    (comp : String → String → List RepositoryCommit) (cc : Bool) : GitHubRepository :=
  { owner := "owner", repo := "test-repo", client := pagedClient listing comp,
    compareCommits := cc }

/-- An initialized provider over a linear history (both endpoints derived
from the same history). -/
def historyRepo (history : List RepositoryCommit) (cc : Bool) : GitHubRepository :=
  pagedRepo (directListing history) (compareListing history) cc

/-! ## Spec-side descriptions -/

/-- What the spec says `GetCommits` returns in direct-listing mode: the
remote listing up to but excluding the first commit whose SHA is
`fromSha` (all of it when none is), each translated to a `RawCommit`. -/
def expectedCommits (L : List RepositoryCommit) (fromSha : String) : List RawCommit :=
  (L.takeWhile (fun c => !(c.getSHA == fromSha))).map toRawCommit

/-! ## List helper lemmas -/

lemma takeWhile_take_of_any (q : α → Bool) (l : List α) (n : Nat)
    (h : (l.take n).any q = true) :
    l.takeWhile (fun a => !q a) = (l.take n).takeWhile (fun a => !q a) := by
  induction l generalizing n with
  | nil => simp at h
  | cons x xs ih =>
    cases n with
    | zero => simp at h
    | succ n =>
      simp only [List.take_succ_cons, List.any_cons, Bool.or_eq_true] at h
      by_cases hx : q x
      · simp [List.takeWhile_cons, hx]
      · have hany : (xs.take n).any q = true := by
          rcases h with h | h
          · exact absurd h hx
          · exact h
        simp [List.takeWhile_cons, hx, ih n hany]

lemma takeWhile_append_of_all (p : α → Bool) (l₁ l₂ : List α)
    (h : ∀ x ∈ l₁, p x = true) :
    (l₁ ++ l₂).takeWhile p = l₁ ++ l₂.takeWhile p := by
  induction l₁ with
  | nil => simp
  | cons x xs ih =>
    have hx := h x (by simp)
    simp [List.takeWhile_cons, hx, ih (fun y hy => h y (by simp [hy]))]

lemma takeWhile_eq_take_of (p : α → Bool) (l : List α) (n : Nat)
    (h1 : ∀ x ∈ l.take n, p x = true)
    (h2 : ∀ h : n < l.length, p (l.get ⟨n, h⟩) = false) :
    l.takeWhile p = l.take n := by
  induction l generalizing n with
  | nil => simp
  | cons x xs ih =>
    cases n with
    | zero =>
      have hx : p x = false := by simpa using h2 (by simp)
      simp [List.takeWhile_cons, hx]
    | succ n =>
      have hx := h1 x (by simp)
      simp only [List.takeWhile_cons, hx, if_true, List.take_succ_cons]
      rw [ih n (fun y hy => h1 y (by simp [hy]))
        (fun h => by simpa using h2 (by simpa using Nat.succ_lt_succ h))]

lemma not_q_of_mem_take_findIdx (q : α → Bool) (l : List α) (x : α)
    (hx : x ∈ l.take (l.findIdx q)) : q x = false := by
  induction l with
  | nil => simp at hx
  | cons y ys ih =>
    rw [List.findIdx_cons] at hx
    by_cases hy : q y
    · simp [hy] at hx
    · simp only [hy, cond_false, List.take_succ_cons, List.mem_cons] at hx
      rcases hx with rfl | hx
      · simpa using hy
      · exact ih hx

/-! ## Page-processing lemmas for `GetCommits` -/

/-- In direct-listing mode one page is translated up to the first commit
with SHA `fromSha`, and `done` is whether such a commit occurred. -/
lemma processCommitsPage_false (fromSha : String) (acc : List RawCommit)
    (page : List RepositoryCommit) :
    processCommitsPage false fromSha acc page =
      (acc ++ (page.takeWhile (fun c => !(c.getSHA == fromSha))).map toRawCommit,
       page.any (fun c => c.getSHA == fromSha)) := by
  induction page generalizing acc with
  | nil => simp [processCommitsPage]
  | cons c rest ih =>
    by_cases h : c.getSHA = fromSha
    · simp [processCommitsPage, h, List.takeWhile_cons]
    · simp [processCommitsPage, h, List.takeWhile_cons, ih]

/-- In compare mode every commit of the page is translated and `done`
never fires. -/
lemma processCommitsPage_true (fromSha : String) (acc : List RawCommit)
    (page : List RepositoryCommit) :
    processCommitsPage true fromSha acc page = (acc ++ page.map toRawCommit, false) := by
  induction page generalizing acc with
  | nil => simp [processCommitsPage]
  | cons c rest ih => simp [processCommitsPage, ih]

/-- The direct-mode pagination loop over a chunked listing collects the
translated remainder of the listing, stopping at `fromSha`: with enough
fuel, starting at any page, the loop returns the accumulator extended by
`expectedCommits` of the part of the listing not yet served. -/
lemma getCommitsLoop_paged_false (listing : String → List RepositoryCommit)
    (comp : String → String → List RepositoryCommit) (fromSha toSha : String) :
    ∀ (fuel page : Nat) (acc : List RawCommit),
      (listing toSha).length - (max page 1 - 1) * 100 < 100 * fuel →
      getCommitsLoop (pagedRepo listing comp false) false fromSha toSha fuel acc
          { perPage := 100, page := page } =
        some (.ok (acc ++
          expectedCommits ((listing toSha).drop ((max page 1 - 1) * 100)) fromSha)) := by
  intro fuel
  induction fuel with
  | zero => intro page acc h; omega
  | succ fuel ih =>
    intro page acc h
    set L := listing toSha with hL
    set d := (max page 1 - 1) * 100 with hd
    have hchunk :
        getCommitsFromGithub (pagedRepo listing comp false) false fromSha toSha
            { perPage := 100, page := page } =
          .ok ((L.drop d).take 100,
            { nextPage := if d + 100 < L.length then max page 1 + 1 else 0,
              statusCode := 200 }) := by
      simp [getCommitsFromGithub, pagedRepo, pagedClient, pageChunk, hL, hd]
    rw [getCommitsLoop, hchunk]
    dsimp only
    rw [processCommitsPage_false]
    dsimp only
    by_cases hany : ((L.drop d).take 100).any (fun c => c.getSHA == fromSha) = true
    · rw [if_pos (Or.inl hany)]
      have : (L.drop d).takeWhile (fun c => !(c.getSHA == fromSha)) =
          ((L.drop d).take 100).takeWhile (fun c => !(c.getSHA == fromSha)) :=
        takeWhile_take_of_any _ _ _ hany
      simp [expectedCommits, this]
    · by_cases hlen : d + 100 < L.length
      · rw [if_neg ?hcond]
        case hcond =>
          simp only [hlen, if_true]
          rintro (hc | hc)
          · exact hany hc
          · omega
        simp only [hlen, if_true]
        have hall : ∀ x ∈ (L.drop d).take 100, (fun c => !(c.getSHA == fromSha)) x = true := by
          intro x hx
          have := (List.any_eq_true.not.mp hany)
          push_neg at this
          simpa using this x hx
        have hfull : ((L.drop d).take 100).takeWhile (fun c => !(c.getSHA == fromSha)) =
            (L.drop d).take 100 := List.takeWhile_eq_self_iff.mpr hall
        have hd' : (max (max page 1 + 1) 1 - 1) * 100 = d + 100 := by omega
        rw [ih (max page 1 + 1) _ (by omega)]
        rw [hd']
        have hsplit : L.drop d = (L.drop d).take 100 ++ L.drop (d + 100) := by
          conv_lhs => rw [← List.take_append_drop 100 (L.drop d)]
          rw [List.drop_drop]
        have : expectedCommits (L.drop d) fromSha =
            ((L.drop d).take 100).map toRawCommit ++
              expectedCommits (L.drop (d + 100)) fromSha := by
          rw [expectedCommits, expectedCommits]
          conv_lhs => rw [hsplit]
          rw [takeWhile_append_of_all _ _ _ hall, List.map_append]
        rw [this, hfull]
        simp [List.append_assoc]
      · rw [if_pos (Or.inr (by simp [hlen]))]
        have hle : (L.drop d).length ≤ 100 := by
          simp only [List.length_drop]
          omega
        have hfull : (L.drop d).take 100 = L.drop d := List.take_of_length_le hle
        simp [expectedCommits, hfull]

/-- The compare-mode pagination loop over a chunked comparison collects
every translated commit of the comparison (no client-side stopping). -/
lemma getCommitsLoop_paged_true (listing : String → List RepositoryCommit)
    (comp : String → String → List RepositoryCommit) (fromSha toSha : String) :
    ∀ (fuel page : Nat) (acc : List RawCommit),
      (comp fromSha toSha).length - (max page 1 - 1) * 100 < 100 * fuel →
      getCommitsLoop (pagedRepo listing comp true) true fromSha toSha fuel acc
          { perPage := 100, page := page } =
        some (.ok (acc ++
          ((comp fromSha toSha).drop ((max page 1 - 1) * 100)).map toRawCommit)) := by
  intro fuel
  induction fuel with
  | zero => intro page acc h; omega
  | succ fuel ih =>
    intro page acc h
    set L := comp fromSha toSha with hL
    set d := (max page 1 - 1) * 100 with hd
    have hchunk :
        getCommitsFromGithub (pagedRepo listing comp true) true fromSha toSha
            { perPage := 100, page := page } =
          .ok ((L.drop d).take 100,
            { nextPage := if d + 100 < L.length then max page 1 + 1 else 0,
              statusCode := 200 }) := by
      simp [getCommitsFromGithub, pagedRepo, pagedClient, pageChunk, hL, hd]
    rw [getCommitsLoop, hchunk]
    dsimp only
    rw [processCommitsPage_true]
    dsimp only
    by_cases hlen : d + 100 < L.length
    · rw [if_neg (by simp [hlen])]
      simp only [hlen, if_true]
      have hd' : (max (max page 1 + 1) 1 - 1) * 100 = d + 100 := by omega
      rw [ih (max page 1 + 1) _ (by omega), hd']
      have hsplit : L.drop d = (L.drop d).take 100 ++ L.drop (d + 100) := by
        conv_lhs => rw [← List.take_append_drop 100 (L.drop d)]
        rw [List.drop_drop]
      conv_rhs => rw [hsplit]
      simp [List.append_assoc]
    · rw [if_pos (Or.inr (by simp [hlen]))]
      have hle : (L.drop d).length ≤ 100 := by
        simp only [List.length_drop]
        omega
      rw [List.take_of_length_le hle]

/-- `GetCommits` in direct-listing mode returns exactly the translated
remote listing up to (excluding) the first commit with SHA `fromSha`. -/
lemma getCommits_paged_false (listing : String → List RepositoryCommit)
    (comp : String → String → List RepositoryCommit) (fromSha toSha : String)
    (fuel : Nat) (hfuel : (listing toSha).length < 100 * fuel) :
    GetCommits (pagedRepo listing comp false) fromSha toSha fuel =
      some (.ok (expectedCommits (listing toSha) fromSha)) := by
  have h0 : (listing toSha).length - (max 0 1 - 1) * 100 < 100 * fuel := by
    simpa using hfuel
  have := getCommitsLoop_paged_false listing comp fromSha toSha fuel 0 [] h0
  simpa [GetCommits, pagedRepo] using this

/-- `GetCommits` in compare mode (with a non-empty `fromSha`) returns
exactly the translated comparison listing. -/
lemma getCommits_paged_true (listing : String → List RepositoryCommit)
    (comp : String → String → List RepositoryCommit) (fromSha toSha : String)
    (hne : fromSha ≠ "") (fuel : Nat)
    (hfuel : (comp fromSha toSha).length < 100 * fuel) :
    GetCommits (pagedRepo listing comp true) fromSha toSha fuel =
      some (.ok ((comp fromSha toSha).map toRawCommit)) := by
  have h0 : (comp fromSha toSha).length - (max 0 1 - 1) * 100 < 100 * fuel := by
    simpa using hfuel
  have := getCommitsLoop_paged_true listing comp fromSha toSha fuel 0 [] h0
  simpa [GetCommits, pagedRepo, hne] using this

/-- Decidable equality of `Except` results (core does not derive one). -/
instance {ε α : Type} [DecidableEq ε] [DecidableEq α] : DecidableEq (Except ε α) := fun a b =>
  match a, b with
  | .error e, .error f =>
    if h : e = f then isTrue (by rw [h]) else isFalse (by simp [h])
  | .error _, .ok _ => isFalse (by simp)
  | .ok _, .error _ => isFalse (by simp)
  | .ok x, .ok y =>
    if h : x = y then isTrue (by rw [h]) else isFalse (by simp [h])

/-- The bridge between the two representations: on a linear history where
`fromSha` occurs and `toSha`'s first position is not after `fromSha`'s,
stopping the direct listing at `fromSha` yields exactly the compare
slice. -/
lemma expectedCommits_eq_compareListing (history : List RepositoryCommit)
    (fromSha toSha : String)
    (hf : ∃ c ∈ history, c.getSHA = fromSha)
    (hle : shaIdx history toSha ≤ shaIdx history fromSha) :
    expectedCommits (directListing history toSha) fromSha =
      (compareListing history fromSha toSha).map toRawCommit := by
  have hcomp : compareListing history fromSha toSha =
      (history.drop (shaIdx history toSha)).take
        (shaIdx history fromSha - shaIdx history toSha) := by
    rw [compareListing, List.drop_take]
  rw [expectedCommits, directListing, hcomp]
  simp only [shaIdx] at hle ⊢
  congr 1
  apply takeWhile_eq_take_of
  · intro x hx
    rw [← List.drop_take] at hx
    have hx' : x ∈ history.take (List.findIdx (fun c => c.getSHA == fromSha) history) :=
      List.mem_of_mem_drop hx
    have : (fun c => c.getSHA == fromSha) x = false :=
      not_q_of_mem_take_findIdx (fun c => c.getSHA == fromSha) history x hx'
    simpa using this
  · intro hlt
    have hflt : List.findIdx (fun c => c.getSHA == fromSha) history < history.length := by
      apply List.findIdx_lt_length_of_exists
      obtain ⟨c, hc, hsha⟩ := hf
      exact ⟨c, hc, by simp [hsha]⟩
    have hidx : (history.drop (List.findIdx (fun c => c.getSHA == toSha) history)).get
        ⟨List.findIdx (fun c => c.getSHA == fromSha) history -
          List.findIdx (fun c => c.getSHA == toSha) history, hlt⟩ =
        history.get ⟨List.findIdx (fun c => c.getSHA == fromSha) history, hflt⟩ := by
      rw [List.get_eq_getElem, List.get_eq_getElem]
      dsimp only
      rw [List.getElem_drop]
      congr 1
      omega
    rw [hidx]
    have hq := @List.findIdx_getElem _ (fun c => c.getSHA == fromSha) history hflt
    simpa using hq

/-! ## Claims C1 and C2 -/

/-- C2: for every remote listing family and every pair of SHAs,
`GetCommits` with compare mode disabled returns exactly the remote listing
for `toSha` up to but excluding the first commit whose SHA equals
`fromSha` (all listed commits when no commit's SHA equals it), each
commit translated by `toRawCommit` to a `RawCommit` carrying the commit's
SHA, raw message and the eight author/committer login/name/email/RFC3339
date annotations. -/
theorem C2_getCommits_direct_spec (listing : String → List RepositoryCommit)
    (fromSha toSha : String) :
    GetCommits (pagedRepo listing (fun _ _ => []) false) fromSha toSha
        ((listing toSha).length / 100 + 1) =
      some (.ok (expectedCommits (listing toSha) fromSha)) := by
  apply getCommits_paged_false
  have h1 := Nat.div_add_mod (listing toSha).length 100
  have h2 : (listing toSha).length % 100 < 100 := Nat.mod_lt _ (by norm_num)
  omega

/-- A two-commit newest-first history fixture: commit `b` (the newer),
then commit `a`. -/
def exHistory : List RepositoryCommit :=
  [{ sha := some "b" }, { sha := some "a" }]

/-- C1 (amended): on a linear history with pairwise-distinct commit SHAs
in which both SHAs occur and are non-empty, and in which `fromSha` is
positioned at or after `toSha` in the newest-first listing (`fromSha` an
ancestor of `toSha`), `GetCommits` returns the same list of `RawCommit`s,
in the same order, whether the compareCommits flag is enabled or
disabled. -/
theorem C1_getCommits_mode_equiv (history : List RepositoryCommit)
    (fromSha toSha : String) (fuel : Nat)
    (hfrom : fromSha ≠ "") (hto : toSha ≠ "")
    (hnd : (history.map RepositoryCommit.getSHA).Nodup)
    (hf : fromSha ∈ history.map RepositoryCommit.getSHA)
    (ht : toSha ∈ history.map RepositoryCommit.getSHA)
    (hle : shaIdx history toSha ≤ shaIdx history fromSha)
    (hfuel : history.length < 100 * fuel) :
    GetCommits (historyRepo history true) fromSha toSha fuel =
      GetCommits (historyRepo history false) fromSha toSha fuel := by
  have hcl : (compareListing history fromSha toSha).length < 100 * fuel := by
    have hb : (compareListing history fromSha toSha).length ≤ history.length := by
      simp only [compareListing, List.length_drop, List.length_take]
      omega
    omega
  have hdl : (directListing history toSha).length < 100 * fuel := by
    have hb : (directListing history toSha).length ≤ history.length := by
      simp only [directListing, List.length_drop]
      omega
    omega
  simp only [historyRepo]
  rw [getCommits_paged_true _ _ _ _ hfrom fuel hcl,
    getCommits_paged_false _ _ _ _ fuel hdl,
    expectedCommits_eq_compareListing history fromSha toSha ?hex hle]
  case hex =>
    obtain ⟨c, hc, hsha⟩ := List.mem_map.mp hf
    exact ⟨c, hc, hsha⟩

/-- Witness for C1: the amended equivalence applied to a concrete history
and an ancestor-ordered pair of SHAs. -/
theorem C1_getCommits_mode_equiv_witness :
    GetCommits (historyRepo exHistory true) "a" "b" 1 =
      GetCommits (historyRepo exHistory false) "a" "b" 1 :=
  C1_getCommits_mode_equiv exHistory "a" "b" 1 (by decide) (by decide) (by decide)
    (by decide) (by decide) (by decide) (by decide)

/-- C1 counterexample to the claim as stated: for the non-empty SHAs
`fromSha = "b"` and `toSha = "a"` of the fixture history (where `b` is the
newer commit, so `fromSha` is not an ancestor of `toSha`), the two modes
disagree: compare yields no commits while the direct listing never stops
and yields the whole suffix from `a`. -/
theorem C1_getCommits_mode_counterexample :
    GetCommits (historyRepo exHistory true) "b" "a" 1 ≠
      GetCommits (historyRepo exHistory false) "b" "a" 1 := by
  decide

/-! ## Abstract paginated clients (for the pagination and release claims) -/

/-- A client serving the direct commit listing from abstract per-request
items `items` and a next-page function `nextF` of the requested page. -/
def abstractCommitClient (items : ListOptions → List RepositoryCommit)
    (nextF : Nat → Nat) : Client :=
  { pagedClient (fun _ => []) (fun _ _ => []) with
    listCommits := fun _ _ _ opts =>
      .ok (items opts, { nextPage := nextF opts.page, statusCode := 200 }) }

/-- An initialized provider over `abstractCommitClient`, compare disabled. -/
def abstractCommitRepo (items : ListOptions → List RepositoryCommit)
    (nextF : Nat → Nat) : GitHubRepository :=
  { owner := "owner", repo := "test-repo",
    client := abstractCommitClient items nextF, compareCommits := false }

/-- A client serving the tag-reference listing from abstract per-request
items and a next-page function of the requested page. -/
def abstractRefClient (items : ReferenceListOptions → List Reference)
    (nextF : Nat → Nat) : Client :=
  { pagedClient (fun _ => []) (fun _ _ => []) with
    listMatchingRefs := fun _ _ opts =>
      (some { nextPage := nextF opts.listOptions.page, statusCode := 200 },
       .ok (items opts)) }

/-- An initialized provider over `abstractRefClient`; its `getTag`
endpoint answers from the map `tags` (dereferencing annotated tags). -/
def abstractRefRepo (items : ReferenceListOptions → List Reference)
    (nextF : Nat → Nat) (tags : String → Except String Tag) : GitHubRepository :=
  { owner := "owner", repo := "test-repo",
    client := { abstractRefClient items nextF with getTag := fun _ _ sha => tags sha },
    compareCommits := false }

/-- The pages a pagination loop visits: the current page, then the pages
from its successor on, until the next-page function yields 0 (with fuel). -/
def pageChain (nextF : Nat → Nat) : Nat → Nat → List Nat
  | 0, _ => []
  | fuel + 1, page =>
    page :: (if nextF page = 0 then [] else pageChain nextF fuel (nextF page))

/-- Every page of a chain is at least its start page. -/
lemma pageChain_le (nextF : Nat → Nat) (hnext : ∀ p, nextF p = 0 ∨ p < nextF p) :
    ∀ (fuel page : Nat), ∀ q ∈ pageChain nextF fuel page, page ≤ q := by
  intro fuel
  induction fuel with
  | zero => simp [pageChain]
  | succ fuel ih =>
    intro p q hq
    rw [pageChain] at hq
    rcases List.mem_cons.mp hq with rfl | hq
    · exact le_refl q
    · by_cases h0 : nextF p = 0
      · simp [h0] at hq
      · rw [if_neg h0] at hq
        have h1 := ih (nextF p) q hq
        have h2 := (hnext p).resolve_left h0
        omega

/-- A page chain is strictly increasing: no page is visited twice. -/
lemma pageChain_pairwise (nextF : Nat → Nat)
    (hnext : ∀ p, nextF p = 0 ∨ p < nextF p) :
    ∀ (fuel page : Nat), (pageChain nextF fuel page).Pairwise (· < ·) := by
  intro fuel
  induction fuel with
  | zero => simp [pageChain]
  | succ fuel ih =>
    intro p
    rw [pageChain]
    by_cases h0 : nextF p = 0
    · simp [h0]
    · rw [if_neg h0]
      refine List.pairwise_cons.mpr ⟨?_, ih (nextF p)⟩
      intro q hq
      have h1 := pageChain_le nextF hnext fuel (nextF p) q hq
      have h2 := (hnext p).resolve_left h0
      omega

/-- The direct-mode commit loop over an abstract paginated listing whose
next-page indices only move forward and are bounded by `N`: with fuel
`N + 2` from any reachable page it terminates and returns the
page-ordered concatenation of the translated pages, every request made
with page size 100. -/
lemma getCommitsLoop_abstract (items : ListOptions → List RepositoryCommit)
    (nextF : Nat → Nat) (fromSha toSha : String) (N : Nat)
    (hnext : ∀ p, nextF p = 0 ∨ p < nextF p) (hbd : ∀ p, nextF p ≤ N)
    (hnostop : ∀ opts, ∀ c ∈ items opts, ¬ c.getSHA = fromSha) :
    ∀ (fuel page : Nat) (acc : List RawCommit),
      page = 0 ∨ page ≤ N → N + 2 - page ≤ fuel →
      getCommitsLoop (abstractCommitRepo items nextF) false fromSha toSha fuel acc
          { perPage := 100, page := page } =
        some (.ok (acc ++ ((pageChain nextF fuel page).map
          (fun p => (items { perPage := 100, page := p }).map toRawCommit)).flatten)) := by
  intro fuel
  induction fuel with
  | zero => intro page acc hpage hfuel; omega
  | succ fuel ih =>
    intro page acc hpage hfuel
    have hchunk :
        getCommitsFromGithub (abstractCommitRepo items nextF) false fromSha toSha
            { perPage := 100, page := page } =
          .ok (items { perPage := 100, page := page },
            { nextPage := nextF page, statusCode := 200 }) := by
      simp [getCommitsFromGithub, abstractCommitRepo, abstractCommitClient]
    rw [getCommitsLoop, hchunk]
    dsimp only
    rw [processCommitsPage_false]
    dsimp only
    have hdone : (items { perPage := 100, page := page }).any
        (fun c => c.getSHA == fromSha) = false := by
      rw [List.any_eq_false]
      intro c hc
      simpa using hnostop { perPage := 100, page := page } c hc
    have hfull : (items { perPage := 100, page := page }).takeWhile
        (fun c => !(c.getSHA == fromSha)) = items { perPage := 100, page := page } := by
      apply List.takeWhile_eq_self_iff.mpr
      intro c hc
      simpa using hnostop { perPage := 100, page := page } c hc
    rw [hdone, hfull, pageChain]
    by_cases h0 : nextF page = 0
    · rw [if_pos (Or.inr h0), if_pos h0]
      simp
    · rw [if_neg (by simp [h0]), if_neg h0]
      have h2 := (hnext page).resolve_left h0
      rw [ih (nextF page) _ (Or.inr (hbd page)) (by have := hbd page; omega)]
      simp [List.append_assoc]

/-- Processing one page of references appends exactly the `filterMap` of
the per-reference translation (`continue` = `none`). -/
lemma processRefs_eq_filterMap (repo : GitHubRepository) (rawRe : String)
    (re : String → Bool) (acc : List Release) (refs : List Reference) :
    processRefs repo rawRe re acc refs =
      acc ++ refs.filterMap (processRef repo rawRe re) := by
  induction refs generalizing acc with
  | nil => simp [processRefs]
  | cons r rest ih =>
    cases h : processRef repo rawRe re r with
    | none => simp [processRefs, h, ih, List.filterMap_cons]
    | some rel => simp [processRefs, h, ih, List.filterMap_cons]

/-- The release pagination loop over an abstract paginated reference
listing whose next-page indices only move forward and are bounded by `M`:
with fuel `M + 2` from any reachable page it terminates and returns the
page-ordered concatenation of the translated pages, every request made
with page size 100 and ref filter `tags`. -/
lemma getReleasesLoop_abstract (items : ReferenceListOptions → List Reference)
    (nextF : Nat → Nat) (tags : String → Except String Tag)
    (rawRe : String) (re : String → Bool) (M : Nat)
    (hnext : ∀ p, nextF p = 0 ∨ p < nextF p) (hbd : ∀ p, nextF p ≤ M) :
    ∀ (fuel page : Nat) (acc : List Release),
      page = 0 ∨ page ≤ M → M + 2 - page ≤ fuel →
      getReleasesLoop (abstractRefRepo items nextF tags) rawRe re fuel acc
          { ref := "tags", listOptions := { perPage := 100, page := page } } =
        some (.ok (acc ++ ((pageChain nextF fuel page).map
          (fun p => (items { ref := "tags", listOptions := { perPage := 100, page := p } }).filterMap
            (processRef (abstractRefRepo items nextF tags) rawRe re))).flatten)) := by
  intro fuel
  induction fuel with
  | zero => intro page acc hpage hfuel; omega
  | succ fuel ih =>
    intro page acc hpage hfuel
    have hresp : (abstractRefRepo items nextF tags).client.listMatchingRefs
        (abstractRefRepo items nextF tags).owner (abstractRefRepo items nextF tags).repo
        { ref := "tags", listOptions := { perPage := 100, page := page } } =
        (some { nextPage := nextF page, statusCode := 200 },
         .ok (items { ref := "tags", listOptions := { perPage := 100, page := page } })) := by
      simp [abstractRefRepo, abstractRefClient]
    rw [getReleasesLoop]
    simp only [hresp, is404]
    rw [if_neg (by decide)]
    rw [processRefs_eq_filterMap, pageChain]
    by_cases h0 : nextF page = 0
    · rw [if_pos h0, if_pos h0]
      simp
    · rw [if_neg h0, if_neg h0]
      have h2 := (hnext page).resolve_left h0
      rw [ih (nextF page) _ (Or.inr (hbd page)) (by have := hbd page; omega)]
      simp [List.append_assoc]

/-! ## Claim C5 -/

/-- C5: over finite paginated remote listings in which each response's
`NextPage` is 0 or a strictly later page (bounded by `N`, resp. `M`), the
pagination loops of `GetCommits` (direct mode; no listed commit carries
the stopping SHA) and of `GetReleases` terminate within `N + 2` (resp.
`M + 2`) requests, visit a strictly increasing page chain — so each page
is requested exactly once, always with page size 100 — and return the
concatenation of the per-page results in page order. -/
theorem C5_pagination_loops (items : ListOptions → List RepositoryCommit)
    (nextF : Nat → Nat) (refItems : ReferenceListOptions → List Reference)
    (nextG : Nat → Nat) (tags : String → Except String Tag)
    (reMatch : String → String → Bool) (fromSha toSha rawRe : String) (N M : Nat)
    (hnextF : ∀ p, nextF p = 0 ∨ p < nextF p) (hbdF : ∀ p, nextF p ≤ N)
    (hnostop : ∀ opts, ∀ c ∈ items opts, ¬ c.getSHA = fromSha)
    (hnextG : ∀ p, nextG p = 0 ∨ p < nextG p) (hbdG : ∀ p, nextG p ≤ M) :
    (GetCommits (abstractCommitRepo items nextF) fromSha toSha (N + 2) =
        some (.ok (((pageChain nextF (N + 2) 0).map
          (fun p => (items { perPage := 100, page := p }).map toRawCommit)).flatten)) ∧
      (pageChain nextF (N + 2) 0).Pairwise (· < ·)) ∧
    (GetReleases (abstractRefRepo refItems nextG tags) reMatch rawRe (M + 2) =
        some (.ok (((pageChain nextG (M + 2) 0).map
          (fun p => (refItems
              { ref := "tags", listOptions := { perPage := 100, page := p } }).filterMap
            (processRef (abstractRefRepo refItems nextG tags) rawRe
              (reMatch rawRe)))).flatten)) ∧
      (pageChain nextG (M + 2) 0).Pairwise (· < ·)) := by
  refine ⟨⟨?_, pageChain_pairwise nextF hnextF _ _⟩,
    ⟨?_, pageChain_pairwise nextG hnextG _ _⟩⟩
  · have h := getCommitsLoop_abstract items nextF fromSha toSha N hnextF hbdF hnostop
      (N + 2) 0 [] (Or.inl rfl) (by omega)
    simpa [GetCommits, abstractCommitRepo] using h
  · have h := getReleasesLoop_abstract refItems nextG tags rawRe (reMatch rawRe) M
      hnextG hbdG (M + 2) 0 [] (Or.inl rfl) (by omega)
    simpa [GetReleases] using h

/-- An empty commit-page family (fixture for witnesses). -/
def noCommitPages : ListOptions → List RepositoryCommit := fun _ => []

/-- An empty reference-page family (fixture for witnesses). -/
def noRefPages : ReferenceListOptions → List Reference := fun _ => []

/-- A next-page function that always ends the listing (fixture). -/
def zeroNext : Nat → Nat := fun _ => 0

/-- A tag-dereference map with no tags (fixture). -/
def noTags : String → Except String Tag := fun _ => .error "no tag"

/-- A regex matcher family that matches everything (fixture). -/
def trueMatch : String → String → Bool := fun _ _ => true

/-- Witness for C5: the pagination theorem applied to one-page empty
listings. -/
theorem C5_pagination_loops_witness :
    (GetCommits (abstractCommitRepo noCommitPages zeroNext) "f" "t" 2 =
        some (.ok (((pageChain zeroNext 2 0).map
          (fun p => (noCommitPages { perPage := 100, page := p }).map toRawCommit)).flatten)) ∧
      (pageChain zeroNext 2 0).Pairwise (· < ·)) ∧
    (GetReleases (abstractRefRepo noRefPages zeroNext noTags) trueMatch "" 2 =
        some (.ok (((pageChain zeroNext 2 0).map
          (fun p => (noRefPages
              { ref := "tags", listOptions := { perPage := 100, page := p } }).filterMap
            (processRef (abstractRefRepo noRefPages zeroNext noTags) ""
              (trueMatch "")))).flatten)) ∧
      (pageChain zeroNext 2 0).Pairwise (· < ·)) :=
  C5_pagination_loops noCommitPages zeroNext noRefPages zeroNext noTags trueMatch
    "f" "t" "" 0 0
    (fun _ => Or.inl rfl) (fun _ => Nat.le_refl 0)
    (fun _ c hc => absurd hc (by simp [noCommitPages]))
    (fun _ => Or.inl rfl) (fun _ => Nat.le_refl 0)

/-! ## Claims C3, C4 and C9 -/

/-- Whatever reference produced a release, its tag name passed the regex
(when one was given) and parsed as a semantic version whose normalized
rendering is the release's version. -/
lemma processRef_some_inv (repo : GitHubRepository) (rawRe : String)
    (re : String → Bool) (r : Reference) (rel : Release)
    (h : processRef repo rawRe re r = some rel) :
    (rawRe ≠ "" → re (trimPfx r.getRef "refs/tags/") = true) ∧
    ∃ v, semverNewVersion (trimPfx r.getRef "refs/tags/") = some v ∧
      rel.version = semverString v := by
  simp only [processRef] at h
  by_cases h1 : rawRe ≠ "" ∧ ¬ re (trimPfx r.getRef "refs/tags/") = true
  · rw [if_pos h1] at h
    cases h
  · rw [if_neg h1] at h
    by_cases h2 : r.objType ≠ "commit" ∧ r.objType ≠ "tag"
    · rw [if_pos h2] at h
      cases h
    · rw [if_neg h2] at h
      cases hres : (if r.objType = "tag" then
          match repo.client.getTag repo.owner repo.repo r.objSHA with
          | .error _ => none
          | .ok resTag =>
            if resTag.objType ≠ "commit" then none else some resTag.objSHA
        else some r.objSHA) with
      | none =>
        rw [hres] at h
        cases h
      | some sha =>
        rw [hres] at h
        cases hv : semverNewVersion (trimPfx r.getRef "refs/tags/") with
        | none =>
          rw [hv] at h
          cases h
        | some version =>
          rw [hv] at h
          cases h
          refine ⟨?_, version, rfl, rfl⟩
          intro hne
          by_cases hmatch : re (trimPfx r.getRef "refs/tags/") = true
          · exact hmatch
          · exact absurd ⟨hne, by simpa using hmatch⟩ h1

/-- C4: over any paginated reference listing, `GetReleases` succeeds (a
tag failing the regex match or the semver parse is silently skipped and
produces no error), and every returned release stems from a reference
whose tag name — the ref with the `refs/tags/` prefix removed — matches
`rawRe` whenever `rawRe` is non-empty, parses as a semantic version `v`,
and whose `Version` field is `v`'s normalized string form. -/
theorem C4_getReleases_regex_semver (refItems : ReferenceListOptions → List Reference)
    (nextG : Nat → Nat) (tags : String → Except String Tag)
    (reMatch : String → String → Bool) (rawRe : String) (M : Nat)
    (hnextG : ∀ p, nextG p = 0 ∨ p < nextG p) (hbdG : ∀ p, nextG p ≤ M) :
    ∃ rels : List Release,
      GetReleases (abstractRefRepo refItems nextG tags) reMatch rawRe (M + 2) =
        some (.ok rels) ∧
      ∀ rel ∈ rels, ∃ r : Reference, ∃ v : SemVersion,
        (rawRe ≠ "" → reMatch rawRe (trimPfx r.getRef "refs/tags/") = true) ∧
        semverNewVersion (trimPfx r.getRef "refs/tags/") = some v ∧
        rel.version = semverString v := by
  have h := getReleasesLoop_abstract refItems nextG tags rawRe (reMatch rawRe) M
    hnextG hbdG (M + 2) 0 [] (Or.inl rfl) (by omega)
  refine ⟨((pageChain nextG (M + 2) 0).map
      (fun p => (refItems
        { ref := "tags", listOptions := { perPage := 100, page := p } }).filterMap
          (processRef (abstractRefRepo refItems nextG tags) rawRe
            (reMatch rawRe)))).flatten, ?_, ?_⟩
  · simpa [GetReleases] using h
  · intro rel hrel
    obtain ⟨page, hpage, hrelpage⟩ := List.mem_flatten.mp hrel
    obtain ⟨p, hp, rfl⟩ := List.mem_map.mp hpage
    obtain ⟨r, hr, hpr⟩ := List.mem_filterMap.mp hrelpage
    obtain ⟨hmatch, v, hv, hver⟩ := processRef_some_inv _ _ _ _ _ hpr
    exact ⟨r, v, hmatch, hv, hver⟩

/-- Witness for C4: the theorem applied to a one-page empty listing. -/
theorem C4_getReleases_regex_semver_witness :
    ∃ rels : List Release,
      GetReleases (abstractRefRepo noRefPages zeroNext noTags) trueMatch "" (0 + 2) =
        some (.ok rels) ∧
      ∀ rel ∈ rels, ∃ r : Reference, ∃ v : SemVersion,
        ("" ≠ "" → trueMatch "" (trimPfx r.getRef "refs/tags/") = true) ∧
        semverNewVersion (trimPfx r.getRef "refs/tags/") = some v ∧
        rel.version = semverString v :=
  C4_getReleases_regex_semver noRefPages zeroNext noTags trueMatch "" 0
    (fun _ => Or.inl rfl) (fun _ => Nat.le_refl 0)

/-- C3: annotated-tag resolution in `GetReleases`.  For a reference whose
git object type is `tag`, the release SHA is resolved by dereferencing
the tag object through the tags API: a failing dereference or one that
yields a non-commit skips the reference (it maps to no release and the
enumeration of the other references proceeds), and a successful
dereference to a commit makes the release carry the referenced commit's
SHA — not the tag object's own SHA.  References whose type is neither
`commit` nor `tag` are likewise skipped. -/
theorem C3_annotated_tag_resolution (refItems : ReferenceListOptions → List Reference)
    (nextG : Nat → Nat) (tags : String → Except String Tag)
    (rawRe : String) (reMatch : String → String → Bool) (r : Reference)
    (htag : r.objType = "tag") :
    (∀ e, tags r.objSHA = .error e →
      processRef (abstractRefRepo refItems nextG tags) rawRe (reMatch rawRe) r = none) ∧
    (∀ t : Tag, tags r.objSHA = .ok t → t.objType ≠ "commit" →
      processRef (abstractRefRepo refItems nextG tags) rawRe (reMatch rawRe) r = none) ∧
    (∀ (t : Tag) (v : SemVersion), tags r.objSHA = .ok t → t.objType = "commit" →
      (rawRe ≠ "" → reMatch rawRe (trimPfx r.getRef "refs/tags/") = true) →
      semverNewVersion (trimPfx r.getRef "refs/tags/") = some v →
      processRef (abstractRefRepo refItems nextG tags) rawRe (reMatch rawRe) r =
        some { sha := t.objSHA, version := semverString v }) ∧
    (∀ r' : Reference, r'.objType ≠ "commit" → r'.objType ≠ "tag" →
      processRef (abstractRefRepo refItems nextG tags) rawRe (reMatch rawRe) r' = none) ∧
    (∀ (acc : List Release) (l₁ l₂ : List Reference),
      processRef (abstractRefRepo refItems nextG tags) rawRe (reMatch rawRe) r = none →
      processRefs (abstractRefRepo refItems nextG tags) rawRe (reMatch rawRe) acc
          (l₁ ++ r :: l₂) =
        processRefs (abstractRefRepo refItems nextG tags) rawRe (reMatch rawRe) acc
          (l₁ ++ l₂)) := by
  have hderef : ∀ sha, (abstractRefRepo refItems nextG tags).client.getTag
      (abstractRefRepo refItems nextG tags).owner
      (abstractRefRepo refItems nextG tags).repo sha = tags sha := by
    intro sha
    simp [abstractRefRepo, abstractRefClient]
  refine ⟨?_, ?_, ?_, ?_, ?_⟩
  · intro e he
    simp [processRef, hderef, htag, he]
  · intro t ht hnc
    simp [processRef, hderef, htag, ht, hnc]
  · intro t v ht hc hmatch hv
    by_cases hraw : rawRe = ""
    · simp [processRef, hderef, htag, ht, hc, hv, hraw]
    · simp [processRef, hderef, htag, ht, hc, hv, hraw, hmatch hraw]
  · intro r' hnc hnt
    simp [processRef, hnc, hnt]
  · intro acc l₁ l₂ hnone
    rw [processRefs_eq_filterMap, processRefs_eq_filterMap,
      List.filterMap_append, List.filterMap_append]
    simp [List.filterMap_cons, hnone]

/-- A concrete annotated-tag reference (fixture). -/
def exTagRef : Reference :=
  { ref := some "refs/tags/v1.0.0",
    object := some { type := some "tag", sha := some "12345678" } }

/-- Witness for C3: with a tag map that has no tags, the fixture annotated
tag's dereference fails and the reference is skipped. -/
theorem C3_annotated_tag_resolution_witness :
    processRef (abstractRefRepo noRefPages zeroNext noTags) "" (trueMatch "") exTagRef =
      none :=
  (C3_annotated_tag_resolution noRefPages zeroNext noTags "" trueMatch exTagRef
    rfl).1 "no tag" rfl

/-- C9: when the tag-listing API responds with HTTP status 404 on any
page, `GetReleases` returns the releases accumulated from the earlier
pages (the empty list if it was the first page) together with a nil
error, instead of propagating a failure. -/
theorem C9_getReleases_404 (repo : GitHubRepository) (reMatch : String → String → Bool)
    (rawRe : String) (re : String → Bool) (fuel : Nat) (acc : List Release)
    (opts : ReferenceListOptions)
    (h404 : is404 (repo.client.listMatchingRefs repo.owner repo.repo opts).1 = true)
    (hfirst : is404 (repo.client.listMatchingRefs repo.owner repo.repo
        { ref := "tags", listOptions := { perPage := 100 } }).1 = true) :
    getReleasesLoop repo rawRe re (fuel + 1) acc opts = some (.ok acc) ∧
    GetReleases repo reMatch rawRe (fuel + 1) = some (.ok []) := by
  constructor
  · rw [getReleasesLoop]
    simp [h404]
  · rw [GetReleases, getReleasesLoop]
    simp [hfirst]

/-- A client whose tag-listing endpoint answers 404 (fixture). -/
def notFoundClient : Client :=
  { pagedClient (fun _ => []) (fun _ _ => []) with
    listMatchingRefs := fun _ _ _ =>
      (some { nextPage := 0, statusCode := 404 }, .error "404 Not Found") }

/-- An initialized provider over `notFoundClient` (fixture). -/
def notFoundRepo : GitHubRepository :=
  { owner := "owner", repo := "test-repo", client := notFoundClient,
    compareCommits := false }

/-- Witness for C9: a first-page 404 yields the empty release list and no
error. -/
theorem C9_getReleases_404_witness :
    getReleasesLoop notFoundRepo "" (trueMatch "") (0 + 1) []
        { ref := "tags", listOptions := { perPage := 100 } } = some (.ok []) ∧
    GetReleases notFoundRepo trueMatch "" (0 + 1) = some (.ok []) :=
  C9_getReleases_404 notFoundRepo trueMatch "" (trueMatch "") 0 []
    { ref := "tags", listOptions := { perPage := 100 } } rfl rfl

/-! ## Claims C6 and C10 -/

/-- The tag name `CreateRelease` publishes: the new version, prefixed with
`v` unless `strip_v_tag_prefix` was configured. -/
def releaseTagName (repo : GitHubRepository) (release : CreateReleaseConfig) : String :=
  (if repo.stripVTagPrefix then "" else "v") ++ release.newVersion

/-- The release payload the claim describes: tag name and title are the
(possibly `v`-prefixed) version, the body is the changelog, the target
commitish is the branch, and the prerelease flag is set exactly when the
config's flag is set or the parsed version has a non-empty prerelease
component. -/
def releasePayload (repo : GitHubRepository) (release : CreateReleaseConfig)
    (v : SemVersion) : RepositoryRelease :=
  { tagName := releaseTagName repo release
    name := releaseTagName repo release
    targetCommitish := release.branch
    body := release.changelog
    prerelease := release.prerelease || decide (v.pre ≠ "") }

/-- C6: for every config whose NewVersion parses as the semantic version
`v`, `CreateRelease` publishes `releasePayload` — tag name and title
`"v" ++ NewVersion` (bare when strip_v_tag_prefix), body the changelog,
target commitish the branch, prerelease exactly when configured or `v`
has a prerelease component.  When Branch = SHA only the release call is
issued; when they differ, the git ref `refs/tags/<tag>` pointing at SHA
is created first, and an error there is returned and aborts the release
creation. -/
theorem C6_createRelease_spec (repo : GitHubRepository)
    (release : CreateReleaseConfig) (v : SemVersion)
    (hv : semverNewVersion release.newVersion = some v) :
    (release.branch = release.sha →
      CreateRelease repo release =
        ([.createRelease repo.owner repo.repo (releasePayload repo release v)],
         some (repo.client.createRelease repo.owner repo.repo
           (releasePayload repo release v)))) ∧
    (release.branch ≠ release.sha →
      (∀ e, repo.client.createRef repo.owner repo.repo
          ("refs/tags/" ++ releaseTagName repo release) release.sha = .error e →
        CreateRelease repo release =
          ([.createRef repo.owner repo.repo
              ("refs/tags/" ++ releaseTagName repo release) release.sha],
           some (.error e))) ∧
      (repo.client.createRef repo.owner repo.repo
          ("refs/tags/" ++ releaseTagName repo release) release.sha = .ok () →
        CreateRelease repo release =
          ([.createRef repo.owner repo.repo
              ("refs/tags/" ++ releaseTagName repo release) release.sha,
            .createRelease repo.owner repo.repo (releasePayload repo release v)],
           some (repo.client.createRelease repo.owner repo.repo
             (releasePayload repo release v))))) := by
  refine ⟨?_, fun hne => ⟨?_, ?_⟩⟩
  · intro heq
    cases hp : release.prerelease <;>
      simp [CreateRelease, releasePayload, releaseTagName, hv, hp, heq]
  · intro e he
    simp only [releaseTagName] at he
    cases hp : release.prerelease <;>
      simp [CreateRelease, releasePayload, releaseTagName, hv, hp, hne, he]
  · intro hok
    simp only [releaseTagName] at hok
    cases hp : release.prerelease <;>
      simp [CreateRelease, releasePayload, releaseTagName, hv, hp, hne, hok]

/-- A client that accepts ref and release creation (fixture). -/
def recordingClient : Client :=
  { pagedClient (fun _ => []) (fun _ _ => []) with
    createRef := fun _ _ _ _ => .ok ()
    createRelease := fun _ _ _ => .ok () }

/-- An initialized provider over `recordingClient` (fixture). -/
def releaseRepo : GitHubRepository :=
  { owner := "owner", repo := "test-repo", client := recordingClient,
    compareCommits := false }

/-- The parse of `"2.0.0"` (fixture). -/
def exV : SemVersion :=
  { major := 2, minor := 0, patch := 0, pre := "", metadata := "" }

/-- A concrete create-release config (fixture). -/
def exReleaseConfig : CreateReleaseConfig :=
  { changelog := "the changelog", newVersion := "2.0.0", prerelease := false,
    branch := "master", sha := "deadbeef" }

/-- Witness for C6: the characterization applied to a concrete config
whose branch differs from its SHA and whose ref creation succeeds. -/
theorem C6_createRelease_spec_witness :
    CreateRelease releaseRepo exReleaseConfig =
      ([.createRef releaseRepo.owner releaseRepo.repo
          ("refs/tags/" ++ releaseTagName releaseRepo exReleaseConfig)
          exReleaseConfig.sha,
        .createRelease releaseRepo.owner releaseRepo.repo
          (releasePayload releaseRepo exReleaseConfig exV)],
       some (releaseRepo.client.createRelease releaseRepo.owner releaseRepo.repo
         (releasePayload releaseRepo exReleaseConfig exV))) :=
  ((C6_createRelease_spec releaseRepo exReleaseConfig exV (by decide)).2
    (by decide)).2 rfl

/-- C10: `CreateRelease` cannot panic for a config whose NewVersion
parses as a semantic version, and for the config with NewVersion
`not-a-version` (Prerelease unset) it panics — `semver.MustParse` fails —
before issuing any API call: the call trace is empty. -/
theorem C10_createRelease_totality :
    (∀ (repo : GitHubRepository) (release : CreateReleaseConfig) (v : SemVersion),
      semverNewVersion release.newVersion = some v →
      (CreateRelease repo release).2 ≠ none) ∧
    CreateRelease releaseRepo { newVersion := "not-a-version" } = ([], none) := by
  constructor
  · intro repo release v hv
    have hres : (if release.prerelease = true then some true
        else Option.map (fun v => decide (v.pre ≠ "")) (semverNewVersion release.newVersion)) =
        some (release.prerelease || decide (v.pre ≠ "")) := by
      cases hp : release.prerelease <;> simp [hv]
    simp only [CreateRelease, hres]
    by_cases hbr : release.branch = release.sha
    · simp [hbr]
    · cases hc : repo.client.createRef repo.owner repo.repo
          ("refs/tags/" ++ ((if repo.stripVTagPrefix = true then "" else "v") ++
            release.newVersion)) release.sha <;>
        simp [hbr, hc]
  · rfl

/-! ## Claim C7 -/

/-- Whether an `Except` result is an error. -/
def isErr : Except ε α → Bool
  | .error _ => true
  | .ok _ => false

/-- C7: `Init` returns an error exactly when (a) no token is supplied via
the `token` config key or the `GITHUB_TOKEN`/`GH_TOKEN` environment
variables, (b) the resolved slug contains no `/`, (c) `strip_v_tag_prefix`
is non-empty and not parseable as a boolean, or (d) an enterprise host is
configured and the enterprise-client construction fails; on success the
repository's owner and repo are the first and second `/`-separated
components of the slug. -/
theorem C7_init_errors (env : InitEnv) (config : String → String) :
    (isErr (Init env config) = true ↔
      (effToken env config = "" ∨
       ¬ strContains (effSlug env config) '/' = true ∨
       (config "strip_v_tag_prefix" ≠ "" ∧
        isErr (parseBool (config "strip_v_tag_prefix")) = true) ∨
       (effGheHost env config ≠ "" ∧
        isErr (env.newEnterpriseClient
          ("https://" ++ effGheHost env config ++ "/api/v3/")) = true))) ∧
    (match Init env config with
     | .ok repo =>
        repo.owner = (splitOnChar (effSlug env config) '/').getD 0 "" ∧
        repo.repo = (splitOnChar (effSlug env config) '/').getD 1 ""
     | .error _ => True) := by
  by_cases htok : effToken env config = ""
  · constructor
    · simp [Init, htok, isErr]
    · simp [Init, htok]
  · by_cases hsl : strContains (effSlug env config) '/' = true
    · by_cases hghe : effGheHost env config = ""
      · cases hpb : parseBool (config "strip_v_tag_prefix") with
        | ok b =>
          constructor
          · simp [Init, htok, hsl, hghe, hpb, isErr]
          · simp [Init, htok, hsl, hghe, hpb]
        | error e =>
          by_cases hsvp : config "strip_v_tag_prefix" = ""
          · rw [hsvp] at hpb
            constructor
            · simp [Init, htok, hsl, hghe, hpb, hsvp, isErr]
            · simp [Init, htok, hsl, hghe, hpb, hsvp]
          · constructor
            · simp [Init, htok, hsl, hghe, hpb, hsvp, isErr]
            · simp [Init, htok, hsl, hghe, hpb, hsvp]
      · cases hent : env.newEnterpriseClient
            ("https://" ++ effGheHost env config ++ "/api/v3/") with
        | error e =>
          constructor
          · simp [Init, htok, hsl, hghe, hent, isErr]
          · simp [Init, htok, hsl, hghe, hent]
        | ok client =>
          cases hpb : parseBool (config "strip_v_tag_prefix") with
          | ok b =>
            constructor
            · simp [Init, htok, hsl, hghe, hent, hpb, isErr]
            · simp [Init, htok, hsl, hghe, hent, hpb]
          | error e =>
            by_cases hsvp : config "strip_v_tag_prefix" = ""
            · rw [hsvp] at hpb
              constructor
              · simp [Init, htok, hsl, hghe, hent, hpb, hsvp, isErr]
              · simp [Init, htok, hsl, hghe, hent, hpb, hsvp]
            · constructor
              · simp [Init, htok, hsl, hghe, hent, hpb, hsvp, isErr]
              · simp [Init, htok, hsl, hghe, hent, hpb, hsvp]
    · constructor
      · simp [Init, htok, hsl, isErr]
      · simp [Init, htok, hsl]

/-! ## Claim C8 -/

/-- A call to one of the provider's post-Init operations. -/
inductive ProviderOp where
  | opGetInfo
  | opGetCommits (fromSha toSha : String) (fuel : Nat)
  | opGetReleases (reMatch : String → String → Bool) (rawRe : String) (fuel : Nat)
  | opCreateRelease (cfg : CreateReleaseConfig)

/-- The result of one provider operation. -/
inductive OpResult where
  | info (r : Except String RepositoryInfo)
  | commits (r : Option (Except String (List RawCommit)))
  | releases (r : Option (Except String (List Release)))
  | created (r : List APICall × Option (Except String Unit))

/-- Run one provider operation: its result, and the provider state after
the call.  The Go method bodies of `GetInfo`, `GetCommits`, `GetReleases`
and `CreateRelease` contain no assignment to any receiver field (`owner`,
`repo`, `stripVTagPrefix`, `client`, `compareCommits` are written by
`Init` alone), so the post-state of each translated operation is its
pre-state. -/
def runOp (repo : GitHubRepository) : ProviderOp → OpResult × GitHubRepository
  | .opGetInfo => (.info (GetInfo repo), repo)
  | .opGetCommits f t fuel => (.commits (GetCommits repo f t fuel), repo)
  | .opGetReleases m re fuel => (.releases (GetReleases repo m re fuel), repo)
  | .opCreateRelease cfg => (.created (CreateRelease repo cfg), repo)

/-- Run a sequence of provider operations, threading the state. -/
def runOps (repo : GitHubRepository) : List ProviderOp → GitHubRepository
  | [] => repo
  | op :: rest => runOps (runOp repo op).2 rest

/-- C8: after a successful `Init`, no sequence of `GetInfo`,
`GetCommits`, `GetReleases` or `CreateRelease` calls modifies any field
of the provider state: each operation's post-state, and the state after
any sequence of them, is the state `Init` produced. -/
theorem C8_operations_stateless (env : InitEnv) (config : String → String)
    (repo : GitHubRepository) (ops : List ProviderOp)
    (hinit : Init env config = .ok repo) :
    (∀ op : ProviderOp, (runOp repo op).2 = repo) ∧ runOps repo ops = repo := by
  have hop : ∀ (r : GitHubRepository) (op : ProviderOp), (runOp r op).2 = r := by
    intro r op
    cases op <;> rfl
  refine ⟨hop repo, ?_⟩
  clear hinit
  induction ops generalizing repo with
  | nil => rfl
  | cons op rest ih =>
    rw [runOps, hop repo op]
    exact ih repo

/-- An environment for a plain (non-enterprise) Init (fixture). -/
def exEnv : InitEnv :=
  { getenv := fun _ => ""
    newClient := recordingClient
    newEnterpriseClient := fun _ => .error "no enterprise host" }

/-- A config with a token and a valid slug (fixture). -/
def exConfig : String → String := fun k =>
  if k = "token" then "secret-token" else if k = "slug" then "owner/test-repo" else ""

/-- The provider state `Init exEnv exConfig` produces (fixture). -/
def exInitRepo : GitHubRepository :=
  { owner := "owner", repo := "test-repo", stripVTagPrefix := false,
    client := recordingClient, compareCommits := false }

/-- Witness for C8: a successful concrete Init, and a concrete call
sequence that leaves the state unchanged. -/
theorem C8_operations_stateless_witness :
    (∀ op : ProviderOp, (runOp exInitRepo op).2 = exInitRepo) ∧
    runOps exInitRepo [.opGetInfo, .opGetReleases trueMatch "" 1] = exInitRepo :=
  C8_operations_stateless exEnv exConfig exInitRepo
    [.opGetInfo, .opGetReleases trueMatch "" 1] (by rfl)

end GithubProvider
